import Mathlib

/-!
Verification of the attachment discovery-and-secure-ingestion pipeline
(`.github/scripts/process-issue-files.ts`).

The script is shallowly embedded: JS strings are modelled as lists of
(Unicode code point) characters, the network is an oracle parameter, the
filesystem is an explicit set of existing paths, and the orchestrator
produces an explicit event trace plus an exit code.
-/

/-- JS strings are modelled as lists of characters (code points). -/
abbrev Str := List Char

/-- `MAX_FILENAME_LENGTH` from the script. -/
def MAX_FILENAME_LENGTH : Nat := 200

/-- `MAX_FILE_SIZE = 25 * 1024 * 1024` from the script. -/
def MAX_FILE_SIZE : Nat := 25 * 1024 * 1024

/-- ASCII decimal digit test (`\d` in a JS regex). -/
def isDigitChar (c : Char) : Bool := '0' ≤ c && c ≤ '9'

/-- JS regex `\w` (non-unicode mode): ASCII letters, digits and underscore. -/
def isWordChar (c : Char) : Bool :=
  ('a' ≤ c && c ≤ 'z') || ('A' ≤ c && c ≤ 'Z') || isDigitChar c || c = '_'

/-- Character class `[\w\-\.%]` used by the attachment URL patterns. -/
def isUrlNameChar (c : Char) : Bool :=
  isWordChar c || c = '-' || c = '.' || c = '%'

/-- ASCII upper-casing, as applied by `toUpperCase` to the ASCII range
(the reserved-name comparison targets are all ASCII). -/
def asciiUpper (s : Str) : Str :=
  s.map fun c => if 'a' ≤ c && c ≤ 'z' then Char.ofNat (c.toNat - 32) else c

/-- ASCII lower-casing, as performed on hosts by the WHATWG URL parser. -/
def asciiLower (s : Str) : Str :=
  s.map fun c => if 'A' ≤ c && c ≤ 'Z' then Char.ofNat (c.toNat + 32) else c

/-- Decimal digit character of a value below 10. -/
def digitChar (n : Nat) : Char := Char.ofNat (48 + n)

/-- Decimal representation of a natural number, fuel-structured so the
kernel can evaluate it (used for the `_${counter}` insertion of
`ensureUniqueFilename` and nowhere else). -/
def natToStrGo : Nat → Nat → Str
  | 0, _ => []
  | fuel + 1, n =>
    if n < 10 then [digitChar n]
    else natToStrGo fuel (n / 10) ++ [digitChar (n % 10)]

def natToStr (n : Nat) : Str := natToStrGo (n + 1) n

/-- Numeric value of a digit string; left inverse used to prove `natToStr`
injective. -/
def digitsVal (s : Str) : Nat := s.foldl (fun a c => a * 10 + (c.toNat - 48)) 0

theorem digitsVal_append (s t : Str) :
    digitsVal (s ++ t) = t.foldl (fun a c => a * 10 + (c.toNat - 48)) (digitsVal s) := by
  simp [digitsVal, List.foldl_append]

theorem digitChar_toNat {n : Nat} (h : n < 10) : (digitChar n).toNat = 48 + n := by
  interval_cases n <;> decide

theorem digitsVal_natToStrGo : ∀ fuel n, n < fuel → digitsVal (natToStrGo fuel n) = n := by
  intro fuel
  induction fuel with
  | zero => intro n h; omega
  | succ fuel ih =>
    intro n h
    unfold natToStrGo
    by_cases h10 : n < 10
    · simp only [h10, if_true]
      simp [digitsVal, digitChar_toNat h10]
    · simp only [h10, if_false]
      rw [digitsVal_append]
      have hlt : n / 10 < n := Nat.div_lt_self (by omega) (by norm_num)
      simp only [List.foldl_cons, List.foldl_nil, ih (n / 10) (by omega),
        digitChar_toNat (Nat.mod_lt n (by norm_num))]
      omega

theorem digitsVal_natToStr (n : Nat) : digitsVal (natToStr n) = n :=
  digitsVal_natToStrGo (n + 1) n (by omega)

theorem natToStr_injective : Function.Injective natToStr := by
  intro a b h
  have := congrArg digitsVal h
  simpa [digitsVal_natToStr] using this

/-! ### Node posix `path.extname` / `path.basename` for slash-free names -/

theorem dropWhile_head_eq_false {p : Char → Bool} :
    ∀ {l : List Char} {a : Char} {t : List Char}, l.dropWhile p = a :: t → p a = false := by
  intro l
  induction l with
  | nil => intro a t h; cases h
  | cons b l ih =>
    intro a t h
    by_cases hb : p b
    · rw [List.dropWhile_cons_of_pos hb] at h
      exact ih h
    · rw [List.dropWhile_cons_of_neg hb] at h
      cases h
      simpa using hb

/-- Split a slash-free name into `(stem, extension)` following Node's posix
`path.extname` (from which `path.basename(f, ext)` follows, the two being
exact complements here): the extension starts at the last dot, except that a
name with no dot, a name whose only dot is its leading character, or the
name `..` have an empty extension. -/
def splitExtNS (s : Str) : Str × Str :=
  match s.reverse.dropWhile (fun c => c != '.') with
  | [] => (s, [])
  | _ :: w =>
    if w = [] then (s, [])
    else if s = ['.', '.'] then (s, [])
    else (w.reverse, '.' :: (s.reverse.takeWhile (fun c => c != '.')).reverse)

/-- `path.extname` restricted to slash-free names. -/
def extnameNS (s : Str) : Str := (splitExtNS s).2

/-- `path.basename(s, path.extname(s))` restricted to slash-free names. -/
def stemNS (s : Str) : Str := (splitExtNS s).1

theorem stemNS_append_extnameNS (s : Str) : stemNS s ++ extnameNS s = s := by
  unfold stemNS extnameNS splitExtNS
  rcases h : s.reverse.dropWhile (fun c => c != '.') with _ | ⟨c, w⟩
  · simp
  · by_cases hw : w = []
    · simp [hw]
    · by_cases hdd : s = ['.', '.']
      · simp [hw, hdd]
      · simp only [hw, hdd, if_false]
        have hc : (fun c => c != '.') c = false :=
          dropWhile_head_eq_false (p := fun c => c != '.') h
        have hc' : c = '.' := by simpa using hc
        have hsplit := List.takeWhile_append_dropWhile (fun c => c != '.') s.reverse
        rw [h, hc'] at hsplit
        have := congrArg List.reverse hsplit
        simp only [List.reverse_append, List.reverse_cons, List.reverse_reverse] at this
        conv_rhs => rw [← this]
        simp

/-- Shape of a nonempty extension: a dot followed by the dot-free reversed
`takeWhile` run. -/
theorem extnameNS_shape (s : Str) :
    extnameNS s = [] ∨
      ∃ t, extnameNS s = '.' :: t ∧ (∀ c ∈ t, c ≠ '.') ∧ (∀ c ∈ t, c ∈ s) := by
  unfold extnameNS splitExtNS
  rcases h : s.reverse.dropWhile (fun c => c != '.') with _ | ⟨c, w⟩
  · simp
  · by_cases hw : w = []
    · simp [hw]
    · by_cases hdd : s = ['.', '.']
      · simp [hw, hdd]
      · right
        refine ⟨(s.reverse.takeWhile (fun c => c != '.')).reverse, by simp [hw, hdd], ?_, ?_⟩
        · intro x hx
          rw [List.mem_reverse] at hx
          have := List.mem_takeWhile_imp hx
          simpa using this
        · intro x hx
          rw [List.mem_reverse] at hx
          have := (List.takeWhile_sublist (l := s.reverse) (fun c => c != '.')).subset hx
          simpa using this

theorem extnameNS_mem {s : Str} {c : Char} (h : c ∈ extnameNS s) : c = '.' ∨ c ∈ s := by
  rcases extnameNS_shape s with he | ⟨t, he, _, hsub⟩
  · rw [he] at h; cases h
  · rw [he] at h
    rcases List.mem_cons.mp h with rfl | h
    · exact Or.inl rfl
    · exact Or.inr (hsub c h)

theorem stemNS_mem {s : Str} {c : Char} (h : c ∈ stemNS s) : c ∈ s := by
  have hsub : stemNS s ++ extnameNS s = s := stemNS_append_extnameNS s
  rw [← hsub]
  exact List.mem_append_left _ h

/-- If the last character of `s` is not a dot and `s` has a nonempty
extension, the extension has a character after the dot. -/
theorem extnameNS_tail_ne_nil {s : Str} {t : Str}
    (hlast : ∀ x, s.reverse.head? = some x → x ≠ '.')
    (h : extnameNS s = '.' :: t) : t ≠ [] := by
  intro ht
  subst ht
  unfold extnameNS splitExtNS at h
  rcases hd : s.reverse.dropWhile (fun c => c != '.') with _ | ⟨c, w⟩ <;> rw [hd] at h
  · simp at h
  · by_cases hw : w = []
    · simp [hw] at h
    · by_cases hdd : s = ['.', '.']
      · rw [hdd] at hlast
        exact absurd rfl (hlast '.' (by rfl))
      · simp only [hw, hdd, if_false, Prod.snd] at h
        have htake : s.reverse.takeWhile (fun c => c != '.') = [] := by
          have := congrArg List.reverse h
          simpa using this.symm
        rcases hr : s.reverse with _ | ⟨x, xs⟩
        · rw [hr] at hd; simp at hd
        · have hx : x = '.' := by
            by_cases hx' : x = '.'
            · exact hx'
            · rw [hr] at htake
              rw [List.takeWhile_cons_of_pos (by simpa using hx')] at htake
              cases htake
          exact (hlast x (by rw [hr]; rfl)) hx

/-! ### Splitting on `/` (JS `split('/')` and posix path segments) -/

/-- `s` contains no path separator. -/
def noSlash (s : Str) : Prop := '/' ∉ s

instance (s : Str) : Decidable (noSlash s) := by unfold noSlash; infer_instance

/-- JS `s.split('/')`, on char lists. -/
def splitSegs : Str → List Str
  | [] => [[]]
  | c :: rest =>
    if c = '/' then [] :: splitSegs rest
    else
      match splitSegs rest with
      | [] => [[c]]
      | s :: ss => (c :: s) :: ss

theorem splitSegs_ne_nil : ∀ l : Str, splitSegs l ≠ [] := by
  intro l
  cases l with
  | nil => simp [splitSegs]
  | cons c rest =>
    by_cases h : c = '/'
    · simp [splitSegs, h]
    · simp only [splitSegs, h, if_false]
      rcases splitSegs rest with _ | ⟨s, ss⟩ <;> simp

theorem splitSegs_noSlash {l : Str} (h : noSlash l) : splitSegs l = [l] := by
  induction l with
  | nil => rfl
  | cons c rest ih =>
    have hc : c ≠ '/' := fun hc => h (by simp [hc])
    have hr : noSlash rest := fun hm => h (List.mem_cons_of_mem _ hm)
    simp [splitSegs, hc, ih hr]

theorem splitSegs_append_slash {x : Str} (y : Str) (h : noSlash x) :
    splitSegs (x ++ '/' :: y) = x :: splitSegs y := by
  induction x with
  | nil => simp [splitSegs]
  | cons c t ih =>
    have hc : c ≠ '/' := fun hc => h (by simp [hc])
    have ht : noSlash t := fun hm => h (List.mem_cons_of_mem _ hm)
    have := ih ht
    simp only [List.cons_append, splitSegs, hc, if_false]
    rw [show t.append ('/' :: y) = t ++ '/' :: y from rfl, this]

theorem splitSegs_singleton {l s : Str} (h : splitSegs l = [s]) : l = s ∧ noSlash l := by
  induction l generalizing s with
  | nil =>
    simp only [splitSegs] at h
    cases h
    exact ⟨rfl, by simp [noSlash]⟩
  | cons c rest ih =>
    by_cases hc : c = '/'
    · simp only [splitSegs, hc, if_true] at h
      injection h with h1 h2
      exact absurd h2 (splitSegs_ne_nil rest)
    · simp only [splitSegs, hc, if_false] at h
      rcases hrest : splitSegs rest with _ | ⟨t, ss⟩
      · exact absurd hrest (splitSegs_ne_nil rest)
      · rw [hrest] at h
        injection h with h1 h2
        rcases ih (s := t) (hrest.trans (by rw [h2])) with ⟨hrt, hns⟩
        constructor
        · rw [← h1, hrt]
        · intro hm
          rcases List.mem_cons.mp hm with hm | hm
          · exact hc hm.symm
          · exact hns hm

/-- The suffix of `u` after its last `/` — the spec's "final path segment
after the last `/`". -/
def afterLastSlash (u : Str) : Str :=
  (u.reverse.takeWhile (fun c => c != '/')).reverse

theorem takeWhile_append_singleton_neg {p : Char → Bool} {a : Char} (xs : List Char)
    (h : p a = false) : (xs ++ [a]).takeWhile p = xs.takeWhile p := by
  rw [List.takeWhile_append]
  split
  · rename_i hl
    have hx : xs.takeWhile p = xs := (List.takeWhile_sublist p).eq_of_length hl
    rw [List.takeWhile_cons_of_neg (by simp [h]), List.append_nil, hx]
  · rfl

theorem afterLastSlash_noSlash {l : Str} (h : noSlash l) : afterLastSlash l = l := by
  unfold afterLastSlash
  have : l.reverse.takeWhile (fun c => c != '/') = l.reverse := by
    rw [List.takeWhile_eq_self_iff]
    intro x hx
    have : x ≠ '/' := fun hc => h (List.mem_reverse.mp (hc ▸ hx))
    simpa using this
  rw [this, List.reverse_reverse]

/-- `split('/').pop()` agrees with "the suffix after the last slash". -/
theorem splitSegs_getLastD (u : Str) : (splitSegs u).getLastD [] = afterLastSlash u := by
  induction u with
  | nil => rfl
  | cons c rest ih =>
    by_cases hc : c = '/'
    · subst hc
      rw [show splitSegs ('/' :: rest) = [] :: splitSegs rest from by simp [splitSegs]]
      rw [List.getLastD_cons, show List.getLastD (splitSegs rest) [] = afterLastSlash rest from ih]
      unfold afterLastSlash
      rw [List.reverse_cons, takeWhile_append_singleton_neg _ (by simp)]
    · simp only [splitSegs, hc, if_false]
      rcases hrest : splitSegs rest with _ | ⟨t, ss⟩
      · exact absurd hrest (splitSegs_ne_nil rest)
      · by_cases hss : ss = []
        · subst hss
          rcases splitSegs_singleton hrest with ⟨hrt, hns⟩
          have hnocs : noSlash (c :: rest) := by
            intro hm
            rcases List.mem_cons.mp hm with hm | hm
            · exact hc hm.symm
            · exact hns hm
          rw [afterLastSlash_noSlash hnocs]
          rw [List.getLastD_cons, List.getLastD_nil, ← hrt]
        · have hmem : ¬ noSlash rest := by
            intro hns
            rw [splitSegs_noSlash hns] at hrest
            injection hrest with h1 h2
            exact hss h2.symm
          have hl : ((c :: t) :: ss).getLastD [] = (t :: ss).getLastD [] := by
            rcases ss with _ | ⟨a, ss2⟩
            · exact absurd rfl hss
            · rw [List.getLastD_cons, List.getLastD_cons, List.getLastD_cons, List.getLastD_cons]
          rw [hl, ← hrest, ih]
          unfold afterLastSlash
          rw [List.reverse_cons]
          have hne : ¬ ((rest.reverse.takeWhile (fun c => c != '/')).length = rest.reverse.length) := by
            intro hlen
            have heq := (List.takeWhile_sublist (l := rest.reverse)
              (fun c => c != '/')).eq_of_length hlen
            have hall := List.takeWhile_eq_self_iff.mp heq
            apply hmem
            intro hm
            have := hall '/' (List.mem_reverse.mpr hm)
            simp at this
          rw [List.takeWhile_append, if_neg hne]

/-! ### `sanitizeFilename` -/

/-- The disallowed character class `[<>:"/\\|?*\x00-\x1f]` of the script. -/
def isInvalidFilenameChar (c : Char) : Bool :=
  c = '<' || c = '>' || c = ':' || c = '"' || c = '/' || c = '\\' ||
  c = '|' || c = '?' || c = '*' || c.toNat ≤ 0x1f

/-- JS regex `\s` (ES2015+ white space and line terminators). -/
def isSpaceJS (c : Char) : Bool :=
  c = ' ' || c = '\t' || c = '\n' || c.toNat = 0x0b || c.toNat = 0x0c || c = '\r' ||
  c.toNat = 0xa0 || c.toNat = 0x1680 || (0x2000 ≤ c.toNat && c.toNat ≤ 0x200a) ||
  c.toNat = 0x2028 || c.toNat = 0x2029 || c.toNat = 0x202f || c.toNat = 0x205f ||
  c.toNat = 0x3000 || c.toNat = 0xfeff

/-- Characters removed by the `^[\s.]+|[\s.]+$` trim: dots and whitespace. -/
def isTrimChar (c : Char) : Bool := c = '.' || isSpaceJS c

/-- `filename.replace(/^[\s.]+|[\s.]+$/g, '')`: remove the leading and the
trailing run of dots/whitespace. -/
def trimDotsSpaces (l : Str) : Str :=
  ((l.dropWhile isTrimChar).reverse.dropWhile isTrimChar).reverse

/-- The reserved Windows device names listed in the script. -/
def reservedNames : List Str :=
  ["CON".data, "PRN".data, "AUX".data, "NUL".data, "COM1".data, "COM2".data,
   "COM3".data, "COM4".data, "COM5".data, "COM6".data, "COM7".data, "COM8".data,
   "COM9".data, "LPT1".data, "LPT2".data, "LPT3".data, "LPT4".data, "LPT5".data,
   "LPT6".data, "LPT7".data, "LPT8".data, "LPT9".data]

/-- `reservedNames.includes(filename.split('.')[0].toUpperCase())`:
the part before the first dot, upper-cased, is a reserved name. -/
def isReservedStem (s : Str) : Bool :=
  reservedNames.contains (asciiUpper (s.takeWhile (fun c => c != '.')))

/-- Step 1 of `sanitizeFilename`: `filename.replace(/[<>:"/\\|?*\x00-\x1f]/g, '_')`. -/
def sanitizeReplace (filename : Str) : Str :=
  filename.map (fun c => if isInvalidFilenameChar c then '_' else c)

/-- Step 2 of `sanitizeFilename`: trim leading/trailing dots and spaces. -/
def sanitizeTrimmed (filename : Str) : Str :=
  trimDotsSpaces (sanitizeReplace filename)

/-- Step 3 of `sanitizeFilename`: prefix `_` when the first-dot stem is a
reserved device name. -/
def sanitizeNamed (filename : Str) : Str :=
  if isReservedStem (sanitizeTrimmed filename) then '_' :: sanitizeTrimmed filename
  else sanitizeTrimmed filename

/-- Step 4 of `sanitizeFilename`: when longer than `MAX_FILENAME_LENGTH`,
truncate the `path.basename` stem, keeping the `path.extname` extension (the
JS `substring` clamps a negative end index to `0`, as does `Nat`
subtraction). -/
def sanitizeTrunc (filename : Str) : Str :=
  if MAX_FILENAME_LENGTH < (sanitizeNamed filename).length
  then (stemNS (sanitizeNamed filename)).take
        (MAX_FILENAME_LENGTH - (extnameNS (sanitizeNamed filename)).length) ++
      extnameNS (sanitizeNamed filename)
  else sanitizeNamed filename

/-- `sanitizeFilename` from the script: the four steps above, then the
fallback to `file` when the result is empty. -/
def sanitizeFilename (filename : Str) : Str :=
  if sanitizeTrunc filename = [] then "file".data else sanitizeTrunc filename

/-- `getFilenameFromUrl` from the script: `url.split('/').pop() || 'file'`,
append `.bin` when the segment has no dot, then sanitize. -/
def getFilenameFromUrl (url : Str) : Str :=
  let seg := (splitSegs url).getLastD []
  let f0 := if seg = [] then "file".data else seg
  let f1 := if '.' ∈ f0 then f0 else f0 ++ ".bin".data
  sanitizeFilename f1

theorem trimDotsSpaces_subset {l : Str} {c : Char} (h : c ∈ trimDotsSpaces l) : c ∈ l := by
  unfold trimDotsSpaces at h
  rw [List.mem_reverse] at h
  have h2 := (List.dropWhile_sublist isTrimChar).subset h
  rw [List.mem_reverse] at h2
  exact (List.dropWhile_sublist isTrimChar).subset h2

theorem trimDotsSpaces_head {l : Str} {c : Char}
    (h : (trimDotsSpaces l).head? = some c) : isTrimChar c = false := by
  unfold trimDotsSpaces at h
  rw [List.head?_reverse] at h
  rcases hb : (l.dropWhile isTrimChar).reverse.dropWhile isTrimChar with _ | ⟨a, t⟩
  · rw [hb] at h; cases h
  · have hlast : ((l.dropWhile isTrimChar).reverse.dropWhile isTrimChar).getLast? =
        (l.dropWhile isTrimChar).reverse.getLast? := by
      have : ∀ (m : Str), m.dropWhile isTrimChar ≠ [] →
          (m.dropWhile isTrimChar).getLast? = m.getLast? := by
        intro m
        induction m with
        | nil => intro hmm; simp at hmm
        | cons a t ih =>
          intro hne
          by_cases ha : isTrimChar a
          · rw [List.dropWhile_cons_of_pos ha] at hne ⊢
            rw [ih hne]
            rcases t with _ | ⟨b, t2⟩
            · simp [List.dropWhile] at hne
            · rw [List.getLast?_cons_cons]
          · rw [List.dropWhile_cons_of_neg ha]
      exact this _ (by rw [hb]; simp)
    rw [hlast, List.getLast?_reverse] at h
    rcases hd : l.dropWhile isTrimChar with _ | ⟨b, t2⟩
    · rw [hd] at h; cases h
    · rw [hd] at h
      simp only [List.head?_cons, Option.some.injEq] at h
      subst h
      exact dropWhile_head_eq_false (p := isTrimChar) hd

theorem trimDotsSpaces_last {l : Str} {c : Char}
    (h : (trimDotsSpaces l).getLast? = some c) : isTrimChar c = false := by
  unfold trimDotsSpaces at h
  rw [List.getLast?_reverse] at h
  rcases hb : (l.dropWhile isTrimChar).reverse.dropWhile isTrimChar with _ | ⟨a, t⟩
  · rw [hb] at h; cases h
  · rw [hb] at h
    simp only [List.head?_cons, Option.some.injEq] at h
    subst h
    exact dropWhile_head_eq_false (p := isTrimChar) hb

/-! ### Properties of the sanitizer -/

/-- A good path segment: nonempty, not `.` or `..`, slash-free. Joining a
good segment onto a normalized absolute directory cannot escape it. -/
def goodSeg (s : Str) : Prop :=
  s ≠ [] ∧ s ≠ ['.'] ∧ s ≠ ['.', '.'] ∧ noSlash s

instance (s : Str) : Decidable (goodSeg s) := by unfold goodSeg; infer_instance

theorem sanitizeReplace_mem {f : Str} {c : Char} (h : c ∈ sanitizeReplace f) :
    isInvalidFilenameChar c = false := by
  unfold sanitizeReplace at h
  rcases List.mem_map.mp h with ⟨a, _, ha⟩
  by_cases hia : isInvalidFilenameChar a
  · rw [if_pos hia] at ha
    rw [← ha]
    decide
  · rw [if_neg hia] at ha
    rw [← ha]
    simpa using hia

theorem sanitizeTrimmed_mem {f : Str} {c : Char} (h : c ∈ sanitizeTrimmed f) :
    isInvalidFilenameChar c = false :=
  sanitizeReplace_mem (trimDotsSpaces_subset h)

theorem sanitizeNamed_mem {f : Str} {c : Char} (h : c ∈ sanitizeNamed f) :
    isInvalidFilenameChar c = false := by
  unfold sanitizeNamed at h
  split at h
  · rcases List.mem_cons.mp h with rfl | h
    · decide
    · exact sanitizeTrimmed_mem h
  · exact sanitizeTrimmed_mem h

theorem sanitizeTrunc_mem {f : Str} {c : Char} (h : c ∈ sanitizeTrunc f) :
    isInvalidFilenameChar c = false := by
  unfold sanitizeTrunc at h
  split at h
  · rcases List.mem_append.mp h with h | h
    · exact sanitizeNamed_mem (stemNS_mem ((List.take_subset _ _) h))
    · rcases extnameNS_mem h with rfl | h
      · decide
      · exact sanitizeNamed_mem h
  · exact sanitizeNamed_mem h

theorem sanitizeFilename_mem {f : Str} {c : Char} (h : c ∈ sanitizeFilename f) :
    isInvalidFilenameChar c = false := by
  unfold sanitizeFilename at h
  split at h
  · have : c = 'f' ∨ c = 'i' ∨ c = 'l' ∨ c = 'e' := by
      simpa using h
    rcases this with rfl | rfl | rfl | rfl <;> decide
  · exact sanitizeTrunc_mem h

theorem sanitizeNamed_head {f : Str} {c : Char}
    (h : (sanitizeNamed f).head? = some c) : isTrimChar c = false := by
  unfold sanitizeNamed at h
  split at h
  · simp only [List.head?_cons, Option.some.injEq] at h
    rw [← h]
    decide
  · exact trimDotsSpaces_head h

theorem sanitizeNamed_last {f : Str} {c : Char}
    (h : (sanitizeNamed f).getLast? = some c) : isTrimChar c = false := by
  unfold sanitizeNamed at h
  split at h
  · rcases ht : sanitizeTrimmed f with _ | ⟨a, t⟩
    · rw [ht] at h
      simp only [List.getLast?_singleton, Option.some.injEq] at h
      rw [← h]
      decide
    · rw [ht, List.getLast?_cons_cons] at h
      rw [← ht] at h
      exact trimDotsSpaces_last h
  · exact trimDotsSpaces_last h

theorem sanitizeTrunc_ne_dots (f : Str) :
    sanitizeTrunc f ≠ ['.'] ∧ sanitizeTrunc f ≠ ['.', '.'] := by
  unfold sanitizeTrunc
  split
  · rename_i hlen
    rcases extnameNS_shape (sanitizeNamed f) with he | ⟨t, he, hnd, _⟩
    · have hstem : stemNS (sanitizeNamed f) = sanitizeNamed f := by
        have h2 := stemNS_append_extnameNS (sanitizeNamed f)
        rw [he, List.append_nil] at h2
        exact h2
      rw [he, hstem, List.append_nil]
      have hlen2 : ((sanitizeNamed f).take (MAX_FILENAME_LENGTH - ([] : Str).length)).length
          = MAX_FILENAME_LENGTH := by
        rw [List.length_take]
        simp only [List.length_nil, Nat.sub_zero]
        exact Nat.min_eq_left (Nat.le_of_lt hlen)
      constructor <;> intro heq <;> rw [heq] at hlen2 <;> simp [MAX_FILENAME_LENGTH] at hlen2
    · have hne : t ≠ [] := by
        refine extnameNS_tail_ne_nil ?_ he
        intro x hx
        rw [List.head?_reverse] at hx
        have := sanitizeNamed_last hx
        intro hdot
        rw [hdot] at this
        exact absurd this (by decide)
      rw [he]
      rcases t with _ | ⟨a, t2⟩
      · exact absurd rfl hne
      constructor <;> intro heq
      · have hsuf : ('.' :: a :: t2 : Str) <:+ ['.'] := ⟨_, heq⟩
        have hlen2 := hsuf.length_le
        simp at hlen2
      · have hsuf : ('.' :: a :: t2 : Str) <:+ ['.', '.'] := ⟨_, heq⟩
        have hlen2 := hsuf.length_le
        simp only [List.length_cons, List.length_nil] at hlen2
        have ht0 : t2 = [] := by
          rw [← List.length_eq_zero]
          omega
        subst ht0
        have heq2 : ('.' :: a :: [] : Str) = ['.', '.'] :=
          hsuf.sublist.eq_of_length (by simp)
        have ha : a = '.' := by simpa using heq2
        exact hnd a (by simp) ha
  · rename_i hlen
    constructor <;> intro heq
    · have := sanitizeNamed_head (by rw [heq]; rfl)
      exact absurd this (by decide)
    · have := sanitizeNamed_head (by rw [heq]; rfl)
      exact absurd this (by decide)

/-- The sanitizer's output is a good path segment: nonempty, not a dot
component, and free of path separators. -/
theorem sanitizeFilename_goodSeg (f : Str) : goodSeg (sanitizeFilename f) := by
  unfold sanitizeFilename
  split
  · decide
  · rename_i h4
    refine ⟨h4, (sanitizeTrunc_ne_dots f).1, (sanitizeTrunc_ne_dots f).2, ?_⟩
    intro hm
    have := sanitizeTrunc_mem hm
    exact absurd this (by decide)

/-! ### Domain validation (`new URL(...)` host + `isAllowedGithubDomain`) -/

def isAlphaChar (c : Char) : Bool := ('a' ≤ c && c ≤ 'z') || ('A' ≤ c && c ≤ 'Z')

/-- Scheme characters per WHATWG (after the leading letter). -/
def isSchemeChar (c : Char) : Bool :=
  isAlphaChar c || isDigitChar c || c = '+' || c = '-' || c = '.'

/-- The `hostname` of a URL string as produced by the platform `URL`
constructor, modelled for ordinary `scheme://…` references: a letter-led
scheme, `://`, then an authority running to the first `/`, `?` or `#`, of
which the part after the last `@` and before a `:` port separator is the
host, ASCII-lower-cased. `none` models the constructor throwing. -/
def parseUrlHost (s : Str) : Option Str :=
  let sch := s.takeWhile (fun c => c != ':')
  let rest := s.drop (sch.length + 1)
  if !sch.isEmpty && isAlphaChar (sch.headD ' ') && sch.all isSchemeChar
      && "//".data.isPrefixOf rest then
    let auth := (rest.drop 2).takeWhile (fun c => c != '/' && c != '?' && c != '#')
    let hostport := (auth.reverse.takeWhile (fun c => c != '@')).reverse
    let host := hostport.takeWhile (fun c => c != ':')
    if host.isEmpty then none else some (asciiLower host)
  else none

/-- `isAllowedGithubDomain` from the script: parse, then allow `github.com`
exactly, or `githubusercontent.com` and any of its subdomains; a parse
failure returns `false`. -/
def isAllowedGithubDomain (urlString : Str) : Bool :=
  match parseUrlHost urlString with
  | none => false
  | some h =>
      h = "github.com".data || h = "githubusercontent.com".data ||
      ".githubusercontent.com".data.isSuffixOf h

/-! ### URL extraction (`extractFileUrls`) -/

/-- A matcher consumes a prefix of the input and returns
`(consumed, captured, rest)`. -/
abbrev Matcher := Str → Option (Str × Str × Str)

/-- Match a literal. -/
def mLit (lit : Str) : Matcher := fun s =>
  if lit.isPrefixOf s then some (lit, lit, s.drop lit.length) else none

/-- Match a nonempty greedy character-class run (`[c]+`). In each of the
script's regexes such a run is followed by a character outside the class (or
ends the pattern), so regex backtracking can only ever keep the maximal run
and this deterministic translation is exact. -/
def mRun1 (p : Char → Bool) : Matcher := fun s =>
  let r := s.takeWhile p
  if r.isEmpty then none else some (r, r, s.drop r.length)

/-- Match a possibly empty greedy run (`[c]*`); same remark as `mRun1`. -/
def mRun0 (p : Char → Bool) : Matcher := fun s =>
  some (s.takeWhile p, s.takeWhile p, s.drop (s.takeWhile p).length)

/-- Sequencing; captures concatenate. -/
def mSeq (a b : Matcher) : Matcher := fun s =>
  match a s with
  | none => none
  | some (x, xc, r) =>
    match b r with
    | none => none
    | some (y, yc, r2) => some (x ++ y, xc ++ yc, r2)

/-- Keep the consumed text but drop it from the capture (text outside the
capture group). -/
def mSilent (m : Matcher) : Matcher := fun s =>
  match m s with
  | none => none
  | some (x, _, r) => some (x, [], r)

/-- Core of pattern 1: `https:\/\/github\.com\/[^\/]+\/[^\/]+\/assets\/\d+\/[\w\-\.%]+`. -/
def pAssetCore : Matcher :=
  mSeq (mLit "https://github.com/".data)
    (mSeq (mRun1 (fun c => c != '/')) (mSeq (mLit "/".data)
      (mSeq (mRun1 (fun c => c != '/')) (mSeq (mLit "/assets/".data)
        (mSeq (mRun1 isDigitChar) (mSeq (mLit "/".data) (mRun1 isUrlNameChar)))))))

/-- Core of pattern 2: `https:\/\/github\.com\/user-attachments\/files\/\d+\/[\w\-\.%]+`. -/
def pAttachCore : Matcher :=
  mSeq (mLit "https://github.com/user-attachments/files/".data)
    (mSeq (mRun1 isDigitChar) (mSeq (mLit "/".data) (mRun1 isUrlNameChar)))

/-- Markdown link wrapper `\[[^\]]*\]\((…)\)` capturing only the inner URL. -/
def mdLinkWrap (inner : Matcher) : Matcher :=
  mSeq (mSilent (mLit "[".data))
    (mSeq (mSilent (mRun0 (fun c => c != ']')))
      (mSeq (mSilent (mLit "](".data))
        (mSeq inner (mSilent (mLit ")".data)))))

/-- Group of pattern 3c: `https:\/\/raw\.githubusercontent\.com\/[^\)]+`. -/
def pRawLinkCore : Matcher :=
  mSeq (mLit "https://raw.githubusercontent.com/".data) (mRun1 (fun c => c != ')'))

/-- Group of pattern 4: `https:\/\/[^\)]+`. -/
def pImgCore : Matcher :=
  mSeq (mLit "https://".data) (mRun1 (fun c => c != ')'))

/-- Pattern 3a: markdown link to `/assets/`. -/
def pMdAsset : Matcher := mdLinkWrap pAssetCore

/-- Pattern 3b: markdown link to `/user-attachments/files/`. -/
def pMdAttach : Matcher := mdLinkWrap pAttachCore

/-- Pattern 3c: markdown link to `raw.githubusercontent.com`. -/
def pMdRaw : Matcher := mdLinkWrap pRawLinkCore

/-- Pattern 4: markdown image `!\[[^\]]*\]\((https:\/\/[^\)]+)\)`. -/
def pImg : Matcher :=
  mSeq (mSilent (mLit "![".data))
    (mSeq (mSilent (mRun0 (fun c => c != ']')))
      (mSeq (mSilent (mLit "](".data))
        (mSeq pImgCore (mSilent (mLit ")".data)))))

/-- The JS global-regex scan: repeatedly find the leftmost match, emit its
capture and continue after the match (`lastIndex` semantics). Every pattern
here consumes at least one character on success. -/
def scanMatches (m : Matcher) : Nat → Str → List Str
  | 0, _ => []
  | fuel + 1, s =>
    match m s with
    | some (x, g, rest) =>
      if x.isEmpty then
        match s with
        | [] => [g]
        | _ :: t => g :: scanMatches m fuel t
      else g :: scanMatches m fuel rest
    | none =>
      match s with
      | [] => []
      | _ :: t => scanMatches m fuel t

/-- Run a global-regex scan over the whole input. -/
def runScan (m : Matcher) (s : Str) : List Str := scanMatches m (s.length + 1) s

/-- JS `String.prototype.includes`: substring (infix) containment. -/
def containsSub (pat l : Str) : Bool := decide (pat <:+: l)

/-- `Set`-insertion over the collected matches: keep first occurrences, in
insertion order (JS `Set` iteration order). -/
def dedupKeepFirst (l : List Str) : List Str :=
  l.foldl (fun acc u => if u ∈ acc then acc else acc ++ [u]) []

/-- `extractFileUrls` from the script: the six pattern scans in source
order, pattern 4 filtered by the substring test
`url.includes('user-images.githubusercontent.com') || url.includes('github.com')`,
all collected into an insertion-ordered set. -/
def extractFileUrls (commentBody : Str) : List Str :=
  let l1 := runScan pAssetCore commentBody
  let l2 := runScan pAttachCore commentBody
  let l3a := runScan pMdAsset commentBody
  let l3b := runScan pMdAttach commentBody
  let l3c := runScan pMdRaw commentBody
  let l4 := (runScan pImg commentBody).filter
    (fun u => containsSub "user-images.githubusercontent.com".data u ||
              containsSub "github.com".data u)
  dedupKeepFirst (l1 ++ l2 ++ l3a ++ l3b ++ l3c ++ l4)

/-! ### Secure downloader (`downloadFile`) -/

/-- An HTTP response as observed by the script: the `ok` status flag, the
`content-length` header when present, whether reading the body rejects, and
the body bytes. -/
structure HttpResp where
  ok : Bool
  contentLength : Option Str
  bodyErr : Bool
  body : List Nat
deriving DecidableEq

/-- Outcome of `fetch`: a network-level error (rejected promise) or a
response. -/
inductive FetchOutcome where
  | err : FetchOutcome
  | resp : HttpResp → FetchOutcome
deriving DecidableEq

/-- `parseInt(s, 10)`: skip whitespace, optional sign, then the longest
digit prefix; `none` models `NaN`. -/
def parseIntJS (s : Str) : Option Int :=
  let t := s.dropWhile isSpaceJS
  match t with
  | '-' :: r =>
    let d := r.takeWhile isDigitChar
    if d.isEmpty then none else some (-(digitsVal d : Int))
  | '+' :: r =>
    let d := r.takeWhile isDigitChar
    if d.isEmpty then none else some ((digitsVal d : Int))
  | r =>
    let d := r.takeWhile isDigitChar
    if d.isEmpty then none else some ((digitsVal d : Int))

/-- Result of the downloader together with effect flags: whether a network
request was issued and whether the body was read (buffered). -/
structure DlResult where
  result : Option (List Nat)
  networkCalled : Bool
  bodyRead : Bool
deriving DecidableEq

/-- The script's declared-length guard: the `content-length` header is
present and truthy (nonempty), and `parseInt(header, 10) > MAX_FILE_SIZE`
(a `NaN` comparison being `false`). -/
def declaredTooBig : Option Str → Bool
  | none => false
  | some cl =>
    if cl.isEmpty then false
    else
      match parseIntJS cl with
      | none => false
      | some v => decide ((MAX_FILE_SIZE : Int) < v)

/-- `downloadFile` from the script, the network being an oracle from URLs to
fetch outcomes. The `try`/`catch` that converts any thrown error (network
failure, the `throw` on a non-ok status, a body read failure) into `null` is
modelled by the explicit `none` branches; the bearer token only affects
request headers, which the oracle abstracts. -/
def downloadFile (oracle : Str → FetchOutcome) (url : Str) (_token : Str) : DlResult :=
  if !isAllowedGithubDomain url then ⟨none, false, false⟩
  else
    match oracle url with
    | .err => ⟨none, true, false⟩
    | .resp r =>
      if !r.ok then ⟨none, true, false⟩
      else if declaredTooBig r.contentLength then ⟨none, true, false⟩
      else if r.bodyErr then ⟨none, true, true⟩
      else if MAX_FILE_SIZE < r.body.length then ⟨none, true, true⟩
      else ⟨some r.body, true, true⟩

/-- Modelled from the spec (§4.3 contract, steps (1)–(6)), to be compared
with the script's `downloadFile`: (1) a URL the Domain Validator rejects is
refused with no network call; (2) otherwise the request is issued; (6) a
network-level error yields absence; (3) a non-success status yields absence;
(4) a declared content length exceeding the maximum yields absence without
buffering the body; (5) otherwise the body is read in full and kept only if
its actual length is within the maximum. -/
def downloadFileSpec (oracle : Str → FetchOutcome) (url : Str) : DlResult :=
  if isAllowedGithubDomain url = false then ⟨none, false, false⟩
  else
    match oracle url with
    | .err => ⟨none, true, false⟩
    | .resp r =>
      if r.ok = false then ⟨none, true, false⟩
      else if declaredTooBig r.contentLength = true then ⟨none, true, false⟩
      else if r.bodyErr = true then ⟨none, true, true⟩
      else if r.body.length ≤ MAX_FILE_SIZE then ⟨some r.body, true, true⟩
      else ⟨none, true, true⟩

/-- Completeness of a download result: absent, or the full response body,
within the size bound — never partial. -/
def dlComplete (oracle : Str → FetchOutcome) (url : Str) (d : DlResult) : Prop :=
  match d.result with
  | none => True
  | some b => b.length ≤ MAX_FILE_SIZE ∧
      ∃ r, oracle url = FetchOutcome.resp r ∧ r.ok = true ∧ r.bodyErr = false ∧ b = r.body

/-! ### Posix path model (`path.join` / `resolve` / `relative` / `isAbsolute`) -/

/-- Posix `path.isAbsolute`. -/
def isAbsolutePath (p : Str) : Bool := p.headD ' ' = '/'

/-- Join segments with `/` (no leading or trailing separator). -/
def joinSegsSlash : List Str → Str
  | [] => []
  | [a] => a
  | a :: b :: rest => a ++ '/' :: joinSegsSlash (b :: rest)

/-- One segment of posix `path.normalize`: empty and `.` segments vanish,
`..` pops the previous segment (vanishing at the root of an absolute path,
kept when there is nothing left to pop in a relative one). -/
def normStep (isAbs : Bool) (acc : List Str) (seg : Str) : List Str :=
  if seg = [] ∨ seg = ['.'] then acc
  else if seg = ['.', '.'] then
    if acc = [] ∨ acc.getLastD [] = ['.', '.'] then
      if isAbs then acc else acc ++ [seg]
    else acc.dropLast
  else acc ++ [seg]

/-- Normalized segment list of a path. -/
def normSegs (isAbs : Bool) (l : List Str) : List Str := l.foldl (normStep isAbs) []

/-- Posix `path.normalize` (modulo trailing-slash preservation, on which no
call site in the script depends: every part joined or resolved here is
separator-free). -/
def normalizePosix (p : Str) : Str :=
  if isAbsolutePath p then '/' :: joinSegsSlash (normSegs true (splitSegs p))
  else if normSegs false (splitSegs p) = [] then ['.']
  else joinSegsSlash (normSegs false (splitSegs p))

/-- Posix `path.join(a, b)` for two nonempty parts, as the script uses it. -/
def joinPath (a b : Str) : Str := normalizePosix (a ++ '/' :: b)

/-- Posix `path.resolve(cwd, p)` for an absolute `cwd`, as the script uses
it (`process.cwd()` is absolute). -/
def resolvePath (cwd p : Str) : Str :=
  if isAbsolutePath p then normalizePosix p else normalizePosix (cwd ++ '/' :: p)

/-- Drop the common prefix of two segment lists. -/
def dropCommon : List Str → List Str → List Str × List Str
  | a :: r1, b :: r2 => if a = b then dropCommon r1 r2 else (a :: r1, b :: r2)
  | r1, r2 => (r1, r2)

/-- Posix `path.relative(from, to)` for absolute inputs (as in the script,
where both arguments have been resolved): normalize both, drop the common
segment prefix, then one `..` per remaining `from` segment followed by the
remaining `to` segments. -/
def relativePath (f t : Str) : Str :=
  let pair := dropCommon (normSegs true (splitSegs f)) (normSegs true (splitSegs t))
  joinSegsSlash (List.replicate pair.1.length ['.', '.'] ++ pair.2)

/-- `rel.startsWith('..')`. -/
def startsWithDotDot (s : Str) : Bool := "..".data.isPrefixOf s

/-- The absolute path with the given segments (`absOf [] = "/"`). -/
def absOf (segs : List Str) : Str := '/' :: joinSegsSlash segs

/-- A normalized absolute path: `/`-rooted with good segments. -/
def isNormalAbs (p : Str) : Prop :=
  ∃ segs, (∀ s ∈ segs, goodSeg s) ∧ p = absOf segs

/-- `p` lies strictly inside directory `base`: it extends `base` by at least
one good (nonempty, non-dot, separator-free) segment. -/
def strictlyInside (base p : Str) : Prop :=
  ∃ segs, segs ≠ [] ∧ (∀ s ∈ segs, goodSeg s) ∧ p = base ++ '/' :: joinSegsSlash segs

theorem joinSegsSlash_append {x y : List Str} (hx : x ≠ []) (hy : y ≠ []) :
    joinSegsSlash (x ++ y) = joinSegsSlash x ++ '/' :: joinSegsSlash y := by
  induction x with
  | nil => exact absurd rfl hx
  | cons a r ih =>
    rcases r with _ | ⟨b, r2⟩
    · rcases y with _ | ⟨c, y2⟩
      · exact absurd rfl hy
      · simp [joinSegsSlash]
    · have := ih (by simp)
      simp only [List.cons_append] at this ⊢
      rw [show joinSegsSlash (a :: b :: (r2 ++ y)) = a ++ '/' :: joinSegsSlash (b :: (r2 ++ y))
          from rfl, this,
        show joinSegsSlash (a :: b :: r2) = a ++ '/' :: joinSegsSlash (b :: r2) from rfl]
      simp

theorem splitSegs_joinSegsSlash {segs : List Str} (hne : segs ≠ [])
    (hns : ∀ s ∈ segs, noSlash s) : splitSegs (joinSegsSlash segs) = segs := by
  induction segs with
  | nil => exact absurd rfl hne
  | cons a r ih =>
    rcases r with _ | ⟨b, r2⟩
    · exact splitSegs_noSlash (hns a (by simp))
    · rw [show joinSegsSlash (a :: b :: r2) = a ++ '/' :: joinSegsSlash (b :: r2) from rfl]
      rw [splitSegs_append_slash _ (hns a (by simp))]
      rw [ih (by simp) (fun s hs => hns s (List.mem_cons_of_mem _ hs))]

theorem normStep_good {isAbs : Bool} {acc : List Str} {s : Str} (h : goodSeg s) :
    normStep isAbs acc s = acc ++ [s] := by
  rcases h with ⟨h1, h2, h3, _⟩
  unfold normStep
  rw [if_neg (by simp [h1, h2]), if_neg h3]

theorem foldl_normStep_good {isAbs : Bool} {l : List Str} (h : ∀ s ∈ l, goodSeg s) :
    ∀ acc, l.foldl (normStep isAbs) acc = acc ++ l := by
  induction l with
  | nil => intro acc; simp
  | cons a r ih =>
    intro acc
    rw [List.foldl_cons, normStep_good (h a (by simp)),
      ih (fun s hs => h s (List.mem_cons_of_mem _ hs))]
    simp

theorem normSegs_splitSegs_absOf {segs : List Str} (h : ∀ s ∈ segs, goodSeg s) :
    normSegs true (splitSegs (absOf segs)) = segs := by
  unfold absOf
  rw [show splitSegs ('/' :: joinSegsSlash segs) = [] :: splitSegs (joinSegsSlash segs)
      from by simp [splitSegs]]
  rcases hs : segs with _ | ⟨a, r⟩
  · rfl
  · rw [← hs]
    have hne : segs ≠ [] := by rw [hs]; simp
    rw [splitSegs_joinSegsSlash hne (fun s hsm => (h s hsm).2.2.2)]
    unfold normSegs
    rw [List.foldl_cons, show normStep true [] [] = [] from by decide, foldl_normStep_good h]
    simp

theorem splitSegs_joinSegsSlash_append {segs : List Str} (t : Str) (hne : segs ≠ [])
    (hns : ∀ s ∈ segs, noSlash s) :
    splitSegs (joinSegsSlash segs ++ '/' :: t) = segs ++ splitSegs t := by
  induction segs with
  | nil => exact absurd rfl hne
  | cons a r ih =>
    rcases r with _ | ⟨b, r2⟩
    · rw [show joinSegsSlash [a] = a from rfl, splitSegs_append_slash _ (hns a (by simp))]
      rfl
    · rw [show joinSegsSlash (a :: b :: r2) = a ++ '/' :: joinSegsSlash (b :: r2) from rfl,
        List.append_assoc, List.cons_append,
        splitSegs_append_slash _ (hns a (by simp)),
        ih (by simp) (fun s hs => hns s (List.mem_cons_of_mem _ hs))]
      rfl

theorem normSegs_split_abs_join {segs : List Str} {n : Str} (hg : ∀ s ∈ segs, goodSeg s)
    (hn : goodSeg n) :
    normSegs true (splitSegs (absOf segs ++ '/' :: n)) = segs ++ [n] := by
  have hgn : ∀ s ∈ segs ++ [n], goodSeg s := by
    intro s hs
    rcases List.mem_append.mp hs with hs | hs
    · exact hg s hs
    · rw [List.mem_singleton.mp hs]
      exact hn
  rcases hc : segs with _ | ⟨a, r⟩
  · obtain ⟨hn1, hn2, hn3, hn4⟩ := hn
    rw [show absOf [] ++ '/' :: n = '/' :: '/' :: n from rfl,
      show splitSegs ('/' :: '/' :: n) = [] :: [] :: splitSegs n from by simp [splitSegs],
      splitSegs_noSlash hn4]
    simp [normSegs, normStep, hn1, hn2, hn3]
  · rw [← hc]
    have hne : segs ≠ [] := by rw [hc]; simp
    rw [show absOf segs ++ '/' :: n = '/' :: (joinSegsSlash segs ++ '/' :: n) from rfl,
      show splitSegs ('/' :: (joinSegsSlash segs ++ '/' :: n))
        = [] :: splitSegs (joinSegsSlash segs ++ '/' :: n) from by simp [splitSegs],
      splitSegs_joinSegsSlash_append n hne (fun s hs => (hg s hs).2.2.2),
      splitSegs_noSlash hn.2.2.2]
    unfold normSegs
    rw [List.foldl_cons, show normStep true [] [] = [] from by decide, foldl_normStep_good hgn]
    simp

theorem isAbsolutePath_absOf_append (segs : List Str) (t : Str) :
    isAbsolutePath (absOf segs ++ t) = true := by
  rw [show absOf segs ++ t = '/' :: (joinSegsSlash segs ++ t) from rfl]
  rfl

theorem normalize_abs_join {segs : List Str} {n : Str} (hg : ∀ s ∈ segs, goodSeg s)
    (hn : goodSeg n) : normalizePosix (absOf segs ++ '/' :: n) = absOf (segs ++ [n]) := by
  unfold normalizePosix
  rw [isAbsolutePath_absOf_append, if_pos rfl, normSegs_split_abs_join hg hn]
  rfl

theorem normalize_absOf {segs : List Str} (hg : ∀ s ∈ segs, goodSeg s) :
    normalizePosix (absOf segs) = absOf segs := by
  unfold normalizePosix
  rw [show isAbsolutePath (absOf segs) = true from rfl, if_pos rfl,
    normSegs_splitSegs_absOf hg]
  rfl

theorem joinPath_absOf {segs : List Str} {n : Str} (hg : ∀ s ∈ segs, goodSeg s)
    (hn : goodSeg n) : joinPath (absOf segs) n = absOf (segs ++ [n]) := by
  unfold joinPath
  exact normalize_abs_join hg hn

theorem dropCommon_self_append (B : List Str) (x : List Str) :
    dropCommon B (B ++ x) = ([], x) := by
  induction B with
  | nil =>
    rcases x with _ | ⟨a, r⟩ <;> rfl
  | cons a r ih =>
    rw [List.cons_append]
    unfold dropCommon
    rw [if_pos rfl]
    exact ih

theorem relativePath_extend {B : List Str} {n : Str} (hg : ∀ s ∈ B, goodSeg s)
    (hn : goodSeg n) : relativePath (absOf B) (absOf (B ++ [n])) = n := by
  unfold relativePath
  have hgn : ∀ s ∈ B ++ [n], goodSeg s := by
    intro s hs
    rcases List.mem_append.mp hs with hs | hs
    · exact hg s hs
    · rw [List.mem_singleton.mp hs]
      exact hn
  rw [normSegs_splitSegs_absOf hg, normSegs_splitSegs_absOf hgn, dropCommon_self_append]
  rfl

theorem absOf_append {B segs : List Str} (hB : B ≠ []) (hs : segs ≠ []) :
    absOf (B ++ segs) = absOf B ++ '/' :: joinSegsSlash segs := by
  unfold absOf
  rw [joinSegsSlash_append hB hs]
  rfl

theorem strictlyInside_absOf {B segs : List Str} (hB : B ≠ []) (hs : segs ≠ [])
    (hg : ∀ s ∈ segs, goodSeg s) : strictlyInside (absOf B) (absOf (B ++ segs)) :=
  ⟨segs, hs, hg, absOf_append hB hs⟩

/-! ### `ensureUniqueFilename` -/

/-- The candidate filename for loop counter `k`: the original name for
`k = 0`, else `${stem}_${k}${ext}` — stem and extension recomputed from the
original `filename` on every iteration, exactly as in the script. -/
def candName (filename : Str) (k : Nat) : Str :=
  if k = 0 then filename
  else stemNS filename ++ '_' :: (natToStr k ++ extnameNS filename)

/-- The `while (existsSync(filePath))` loop of `ensureUniqueFilename`,
with fuel. -/
def eufGo (fs : List Str) (dir filename : Str) : Nat → Nat → Str
  | 0, k => joinPath dir (candName filename k)
  | fuel + 1, k =>
    if joinPath dir (candName filename k) ∈ fs then eufGo fs dir filename fuel (k + 1)
    else joinPath dir (candName filename k)

/-- `ensureUniqueFilename` from the script: starting from the candidate
name, insert an ascending counter (from 1) between stem and extension until
the resulting path does not exist on disk (`fs` is the set of existing
paths). Fuel `fs.length + 1` suffices: the candidate paths are pairwise
distinct, so one of the first `fs.length + 1` avoids `fs` and the script's
unbounded loop stops at exactly that candidate. -/
def ensureUniqueFilename (fs : List Str) (dir filename : Str) : Str :=
  eufGo fs dir filename (fs.length + 1) 0

theorem natToStr_ne_nil (n : Nat) : natToStr n ≠ [] := by
  unfold natToStr natToStrGo
  split
  · simp
  · simp

theorem digitChar_isDigit {n : Nat} (h : n < 10) : isDigitChar (digitChar n) = true := by
  interval_cases n <;> decide

theorem natToStrGo_mem : ∀ fuel (n : Nat) (c : Char),
    c ∈ natToStrGo fuel n → isDigitChar c = true := by
  intro fuel
  induction fuel with
  | zero => intro n c h; cases h
  | succ fuel ih =>
    intro n c h
    unfold natToStrGo at h
    split at h
    · rename_i hlt
      rw [List.mem_singleton.mp h]
      exact digitChar_isDigit hlt
    · rcases List.mem_append.mp h with h | h
      · exact ih (n / 10) c h
      · rw [List.mem_singleton.mp h]
        exact digitChar_isDigit (Nat.mod_lt n (by norm_num))

theorem natToStr_mem {n : Nat} {c : Char} (h : c ∈ natToStr n) : isDigitChar c = true :=
  natToStrGo_mem (n + 1) n c h

theorem candName_goodSeg {f : Str} (hf : goodSeg f) (k : Nat) : goodSeg (candName f k) := by
  unfold candName
  split
  · exact hf
  · have hu : '_' ∈ stemNS f ++ '_' :: (natToStr k ++ extnameNS f) := by
      exact List.mem_append_right _ (by simp)
    refine ⟨?_, ?_, ?_, ?_⟩
    · intro he
      rw [he] at hu
      cases hu
    · intro he
      rw [he] at hu
      simp at hu
    · intro he
      rw [he] at hu
      simp at hu
    · intro hm
      rcases List.mem_append.mp hm with hm | hm
      · exact hf.2.2.2 (stemNS_mem hm)
      · rcases List.mem_cons.mp hm with hm | hm
        · cases hm
        · rcases List.mem_append.mp hm with hm | hm
          · have := natToStr_mem hm
            exact absurd this (by decide)
          · rcases extnameNS_mem hm with hm | hm
            · cases hm
            · exact hf.2.2.2 hm

theorem candName_inj {f : Str} (hf : goodSeg f) : Function.Injective (candName f) := by
  have hlen : ∀ j k : Nat, j = 0 → k ≠ 0 → candName f j ≠ candName f k := by
    intro j k hj hk h
    unfold candName at h
    rw [if_pos hj, if_neg hk] at h
    have hl := congrArg List.length h
    have hse := congrArg List.length (stemNS_append_extnameNS f)
    rw [List.length_append] at hse
    simp only [List.length_append, List.length_cons] at hl
    have hnn : 1 ≤ (natToStr k).length := List.length_pos.mpr (natToStr_ne_nil k)
    omega
  intro j k h
  by_cases hj : j = 0 <;> by_cases hk : k = 0
  · rw [hj, hk]
  · exact absurd h (hlen j k hj hk)
  · exact absurd h.symm (hlen k j hk hj)
  · unfold candName at h
    rw [if_neg hj, if_neg hk] at h
    have h2 := List.append_cancel_left h
    injection h2 with _ h3
    exact natToStr_injective (List.append_cancel_right h3)

theorem joinPath_inj_cand {D : List Str} (hD : ∀ s ∈ D, goodSeg s) {g1 g2 : Str}
    (h1 : goodSeg g1) (h2 : goodSeg g2)
    (h : joinPath (absOf D) g1 = joinPath (absOf D) g2) : g1 = g2 := by
  rw [joinPath_absOf hD h1, joinPath_absOf hD h2] at h
  have h' : joinSegsSlash (D ++ [g1]) = joinSegsSlash (D ++ [g2]) := by
    have h2 := congrArg (fun l : Str => l.drop 1) h
    simpa [absOf] using h2
  rcases hD0 : D with _ | ⟨a, r⟩
  · rw [hD0] at h'
    simpa [joinSegsSlash] using h'
  · rw [hD0] at h'
    have hne : (a :: r : List Str) ≠ [] := by simp
    rw [joinSegsSlash_append hne (by simp), joinSegsSlash_append hne (by simp)] at h'
    have h4 := List.append_cancel_left h'
    simpa [joinSegsSlash] using h4

theorem eufGo_exists_free (fs : List Str) (dir f : Str) (hD : isNormalAbs dir)
    (hf : goodSeg f) : ∃ k, k ≤ fs.length ∧ joinPath dir (candName f k) ∉ fs := by
  by_contra hall
  push_neg at hall
  obtain ⟨D, hDg, rfl⟩ := hD
  have hinj : Function.Injective (fun k => joinPath (absOf D) (candName f k)) := by
    intro a b hab
    exact candName_inj hf
      (joinPath_inj_cand hDg (candName_goodSeg hf a) (candName_goodSeg hf b) hab)
  have hnd : ((List.range (fs.length + 1)).map
      (fun k => joinPath (absOf D) (candName f k))).Nodup :=
    List.Nodup.map hinj (List.nodup_range _)
  have hsub : ((List.range (fs.length + 1)).map
      (fun k => joinPath (absOf D) (candName f k))) ⊆ fs := by
    intro x hx
    rcases List.mem_map.mp hx with ⟨k, hk, rfl⟩
    exact hall k (by have := List.mem_range.mp hk; omega)
  have hcard : ((List.range (fs.length + 1)).map
      (fun k => joinPath (absOf D) (candName f k))).length ≤ fs.length := by
    calc ((List.range (fs.length + 1)).map
        (fun k => joinPath (absOf D) (candName f k))).length
        = ((List.range (fs.length + 1)).map
            (fun k => joinPath (absOf D) (candName f k))).toFinset.card :=
          (List.toFinset_card_of_nodup hnd).symm
      _ ≤ fs.toFinset.card := Finset.card_le_card
          (fun x hx => List.mem_toFinset.mpr (hsub (List.mem_toFinset.mp hx)))
      _ ≤ fs.length := List.toFinset_card_le fs
  rw [List.length_map, List.length_range] at hcard
  omega

theorem eufGo_spec (fs : List Str) (dir f : Str) :
    ∀ fuel start, (∃ j, j < fuel ∧ joinPath dir (candName f (start + j)) ∉ fs) →
      eufGo fs dir f fuel start ∉ fs ∧
      ∃ j, eufGo fs dir f fuel start = joinPath dir (candName f (start + j)) ∧
        (∀ i, i < j → joinPath dir (candName f (start + i)) ∈ fs) := by
  intro fuel
  induction fuel with
  | zero =>
    intro start h
    rcases h with ⟨j, hj, _⟩
    omega
  | succ fuel ih =>
    intro start h
    unfold eufGo
    split
    · rename_i hmem
      have h2 : ∃ j, j < fuel ∧ joinPath dir (candName f (start + 1 + j)) ∉ fs := by
        rcases h with ⟨j, hj, hfree⟩
        rcases Nat.eq_zero_or_pos j with rfl | hpos
        · exact absurd hmem (by simpa using hfree)
        · refine ⟨j - 1, by omega, ?_⟩
          have harg : start + 1 + (j - 1) = start + j := by omega
          rw [harg]
          exact hfree
      rcases ih (start + 1) h2 with ⟨hnot, j, heq, hall⟩
      refine ⟨hnot, j + 1, ?_, ?_⟩
      · rw [heq]
        have harg : start + 1 + j = start + (j + 1) := by omega
        rw [harg]
      · intro i hi
        rcases Nat.eq_zero_or_pos i with rfl | hpos
        · simpa using hmem
        · have harg : start + i = start + 1 + (i - 1) := by omega
          rw [harg]
          exact hall (i - 1) (by omega)
    · rename_i hmem
      refine ⟨hmem, 0, by rw [Nat.add_zero], fun i hi => absurd hi (Nat.not_lt_zero i)⟩

/-- The Unique-Path Resolver returns a path that does not exist on disk, and
it is the join of the directory with the first collision-free counter
candidate. -/
theorem ensureUniqueFilename_spec (fs : List Str) (dir f : Str) (hD : isNormalAbs dir)
    (hf : goodSeg f) :
    ensureUniqueFilename fs dir f ∉ fs ∧
    ∃ k, ensureUniqueFilename fs dir f = joinPath dir (candName f k) ∧
      ∀ i, i < k → joinPath dir (candName f i) ∈ fs := by
  unfold ensureUniqueFilename
  rcases eufGo_exists_free fs dir f hD hf with ⟨k, hk, hnot⟩
  have hex : ∃ j, j < fs.length + 1 ∧ joinPath dir (candName f (0 + j)) ∉ fs :=
    ⟨k, by omega, by simpa using hnot⟩
  rcases eufGo_spec fs dir f (fs.length + 1) 0 hex with ⟨h1, j, h2, h3⟩
  exact ⟨h1, j, by simpa using h2, fun i hi => by simpa using h3 i hi⟩

/-! ### The Ingestion Orchestrator (`main`) -/

/-- The environment variables read by the script; `none` models unset. -/
structure Env where
  github_token : Option Str
  issue_number : Option Str
  comment_body : Option Str
  comment_id : Option Str
  github_repository : Option Str
  github_output : Option Str
deriving DecidableEq

/-- The ingestion manifest (`FileMetadata` in the script). -/
structure FileMetadata where
  issue_number : Str
  comment_id : Str
  files : List Str
  timestamp : Str
deriving DecidableEq

/-- Externally observable events of a run, in order: the traversal guard
being evaluated, directory creation, file writes, the metadata write, and
lines emitted to the reporting channel. -/
inductive Event where
  | guardChecked : Event
  | mkdirEvt : Str → Event
  | writeFile : Str → List Nat → Event
  | writeMeta : Str → FileMetadata → Event
  | setOut : Str → Str → Event
deriving DecidableEq

/-- `setOutput`: appends `name=value` to the file named by `GITHUB_OUTPUT`;
throws (modelled as `none`) when that variable is unset or empty. -/
def setOutputEvt (out : Option Str) (name value : Str) : Option Event :=
  match out with
  | none => none
  | some p => if p = [] then none else some (Event.setOut name value)

/-- The `^\d+$` test on the event identifier. -/
def isDigitsStr (s : Str) : Bool := !s.isEmpty && s.all isDigitChar

/-- The `file_list` output value: one `` - `path` `` line per file
(`Char.ofNat 96` is the backquote), newline-joined. -/
def joinLines : List Str → Str
  | [] => []
  | [a] => a
  | a :: b :: r => a ++ '\n' :: joinLines (b :: r)

def fileListStr (files : List Str) : Str :=
  joinLines (files.map (fun f => "- ".data ++ Char.ofNat 96 :: (f ++ [Char.ofNat 96])))

/-- The per-URL loop of `main`: download (skip on absence), derive a
filename, resolve a unique path, write the file. Returns the events, the
final on-disk path set, and the `downloadedFiles` accumulator in write
order. -/
def processUrls (oracle : Str → FetchOutcome) (token targetDir : Str) :
    List Str → List Str → List Event × List Str × List Str
  | [], fs => ([], fs, [])
  | url :: rest, fs =>
    match (downloadFile oracle url token).result with
    | none => processUrls oracle token targetDir rest fs
    | some content =>
      let fp := ensureUniqueFilename fs targetDir (getFilenameFromUrl url)
      let r := processUrls oracle token targetDir rest (fp :: fs)
      (Event.writeFile fp content :: r.1, r.2.1, fp :: r.2.2)

/-- `main` from the script: read the environment (missing required values
are fatal), validate the numeric event identifier, compute and guard the
target directory, create it, extract candidate URLs, run the per-URL loop,
and report. The pair is the event trace and the process exit code; `fs0` is
the set of paths existing on disk beforehand and `now` the timestamp. -/
def mainRun (cwd : Str) (env : Env) (oracle : Str → FetchOutcome) (fs0 : List Str)
    (now : Str) : List Event × Nat :=
  let token := env.github_token.getD []
  let issueNumber := env.issue_number.getD []
  let commentBody := env.comment_body.getD []
  let commentId := env.comment_id.getD []
  let repository := env.github_repository.getD []
  if token = [] ∨ issueNumber = [] ∨ commentId = [] ∨ repository = [] then ([], 1)
  else if ¬ isDigitsStr issueNumber then ([], 1)
  else
    let baseDir := resolvePath cwd "uploaded_files".data
    let targetDir := joinPath baseDir ("issue_".data ++ issueNumber)
    let resolvedTargetDir := resolvePath cwd targetDir
    let rel := relativePath baseDir resolvedTargetDir
    if startsWithDotDot rel || isAbsolutePath rel then ([Event.guardChecked], 1)
    else
      let ev0 := [Event.guardChecked, Event.mkdirEvt targetDir]
      let fileUrls := extractFileUrls commentBody
      if fileUrls = [] then
        match setOutputEvt env.github_output "files_processed".data "false".data with
        | none => (ev0, 1)
        | some e => (ev0 ++ [e], 0)
      else
        let r := processUrls oracle token targetDir fileUrls fs0
        if r.2.2 = [] then
          match setOutputEvt env.github_output "files_processed".data "false".data with
          | none => (ev0 ++ r.1, 1)
          | some e => (ev0 ++ r.1 ++ [e], 0)
        else
          match setOutputEvt env.github_output "files_processed".data "true".data with
          | none => (ev0 ++ r.1, 1)
          | some e1 =>
            match setOutputEvt env.github_output "file_list".data (fileListStr r.2.2) with
            | none => (ev0 ++ r.1 ++ [e1], 1)
            | some e2 =>
              (ev0 ++ r.1 ++
                [e1, e2,
                  Event.writeMeta (joinPath targetDir "metadata.json".data)
                    ⟨issueNumber, commentId, r.2.2, now⟩], 0)

/-- The file paths written in a trace, in write order. -/
def writtenPaths (tr : List Event) : List Str :=
  tr.filterMap (fun e => match e with | Event.writeFile p _ => some p | _ => none)

/-- The metadata writes in a trace. -/
def metaWrites (tr : List Event) : List (Str × FileMetadata) :=
  tr.filterMap (fun e => match e with | Event.writeMeta p m => some (p, m) | _ => none)

/-- Every filesystem path touched by a trace (directory creation, file
writes, the metadata write). -/
def allWritePaths (tr : List Event) : List Str :=
  tr.filterMap (fun e => match e with
    | Event.writeFile p _ => some p
    | Event.writeMeta p _ => some p
    | _ => none)

theorem getFilenameFromUrl_goodSeg (url : Str) : goodSeg (getFilenameFromUrl url) := by
  unfold getFilenameFromUrl
  exact sanitizeFilename_goodSeg _

@[simp] theorem writtenPaths_processUrls (oracle : Str → FetchOutcome) (token targetDir : Str) :
    ∀ (urls : List Str) (fs : List Str),
      writtenPaths (processUrls oracle token targetDir urls fs).1 =
        (processUrls oracle token targetDir urls fs).2.2 := by
  intro urls
  induction urls with
  | nil => intro fs; rfl
  | cons url rest ih =>
    intro fs
    unfold processUrls
    split
    · exact ih fs
    · dsimp only
      simp only [writtenPaths, List.filterMap_cons]
      have h2 := ih (ensureUniqueFilename fs targetDir (getFilenameFromUrl url) :: fs)
      simp only [writtenPaths] at h2
      rw [h2]

@[simp] theorem metaWrites_processUrls (oracle : Str → FetchOutcome) (token targetDir : Str) :
    ∀ (urls : List Str) (fs : List Str),
      metaWrites (processUrls oracle token targetDir urls fs).1 = [] := by
  intro urls
  induction urls with
  | nil => intro fs; rfl
  | cons url rest ih =>
    intro fs
    unfold processUrls
    split
    · exact ih fs
    · dsimp only
      simp only [metaWrites, List.filterMap_cons]
      have h2 := ih (ensureUniqueFilename fs targetDir (getFilenameFromUrl url) :: fs)
      simp only [metaWrites] at h2
      rw [h2]

theorem processUrls_paths {oracle : Str → FetchOutcome} {token targetDir : Str}
    (hd : isNormalAbs targetDir) :
    ∀ (urls : List Str) (fs : List Str) (p : Str),
      p ∈ (processUrls oracle token targetDir urls fs).2.2 →
      ∃ g, goodSeg g ∧ p = joinPath targetDir g := by
  intro urls
  induction urls with
  | nil => intro fs p hp; cases hp
  | cons url rest ih =>
    intro fs p hp
    unfold processUrls at hp
    split at hp
    · exact ih fs p hp
    · dsimp only at hp
      rcases List.mem_cons.mp hp with rfl | hp
      · rcases ensureUniqueFilename_spec fs targetDir (getFilenameFromUrl url) hd
          (getFilenameFromUrl_goodSeg url) with ⟨_, k, heq, _⟩
        exact ⟨candName (getFilenameFromUrl url) k,
          candName_goodSeg (getFilenameFromUrl_goodSeg url) k, heq⟩
      · exact ih _ p hp

/-! ### Claim theorems -/

/-- C2: the Domain Validator returns `true` iff the URL parses and its host
is exactly `github.com`, or is `githubusercontent.com` or a subdomain of it;
unparseable strings give `false`. In particular it accepts the three
documented GitHub URL forms and rejects `https://evil.com/github.com/...`
and non-URL strings. -/
theorem isAllowedGithubDomain_contract :
    (∀ s : Str, isAllowedGithubDomain s = true ↔
      ∃ h, parseUrlHost s = some h ∧
        (h = "github.com".data ∨ h = "githubusercontent.com".data ∨
          ".githubusercontent.com".data <:+ h)) ∧
    isAllowedGithubDomain "https://github.com/o/r/assets/1/a.png".data = true ∧
    isAllowedGithubDomain "https://raw.githubusercontent.com/u/r/m/f.txt".data = true ∧
    isAllowedGithubDomain "https://user-images.githubusercontent.com/1/2.png".data = true ∧
    isAllowedGithubDomain "https://evil.com/github.com/a".data = false ∧
    isAllowedGithubDomain "not a url".data = false := by
  refine ⟨?_, by decide, by decide, by decide, by decide, by decide⟩
  intro s
  unfold isAllowedGithubDomain
  rcases hp : parseUrlHost s with _ | h
  · simp
  · simp only [Bool.or_eq_true, decide_eq_true_eq, List.isSuffixOf_iff_suffix]
    constructor
    · intro hb
      exact ⟨h, rfl, by tauto⟩
    · rintro ⟨h2, heq2, hcase⟩
      injection heq2 with heq3
      rw [heq3]
      tauto

/-- Modelled from the spec (§4.4 "take the final path segment after the
last `/`"), to be compared with the script's `split('/').pop() || 'file'`:
the suffix after the last slash, with the script's `file` fallback when that
suffix is empty. -/
def lastSegmentSpec (url : Str) : Str :=
  if afterLastSlash url = [] then "file".data else afterLastSlash url

/-- Modelled from the spec (§4.4): append the default binary extension
`.bin` when the segment contains no dot. -/
def withDefaultExt (seg : Str) : Str :=
  if '.' ∈ seg then seg else seg ++ ".bin".data

/-- C9: the Filename Deriver is a pure function of the URL and factors
exactly as the spec describes: take the final path segment after the last
`/`, append `.bin` when it has no dot, then sanitize. (Determinism is
inherent: both sides are functions of the URL alone, and the right-hand
side depends on the URL only through its final path segment.) -/
theorem getFilenameFromUrl_pure :
    ∀ url : Str,
      getFilenameFromUrl url = sanitizeFilename (withDefaultExt (lastSegmentSpec url)) := by
  intro url
  unfold getFilenameFromUrl lastSegmentSpec withDefaultExt
  rw [splitSegs_getLastD]

set_option maxRecDepth 10000 in
/-- C3 (code bug): the sanitizer is documented (`MAX_FILENAME_LENGTH`,
"use 200 to be safe") to bound its output at 200 characters, but for a
filename whose `path.extname` extension alone exceeds 200 characters the JS
`substring(0, 200 - ext.length)` clamps its negative end index to `0` and
the whole oversized extension is returned: on the 253-character input
`ab.xxx…x` (250 `x`s) the output is the 251-character extension. -/
theorem sanitizeFilename_length_exceeded :
    MAX_FILENAME_LENGTH < (sanitizeFilename ("ab.".data ++ List.replicate 250 'x')).length ∧
    (sanitizeFilename ("ab.".data ++ List.replicate 250 'x')).length = 251 := by
  decide

set_option maxRecDepth 10000 in
/-- C6: the Unique-Path Resolver returns a path inside the directory that
does not currently exist, walking candidates `name`, `stem_1.ext`,
`stem_2.ext`, … (ascending counter from 1 inserted between stem and
extension) and stopping at the first free one; with `photo.png` present it
yields `photo_1.png`, and with both present, `photo_2.png`. -/
theorem ensureUniqueFilename_contract :
    (∀ (fs : List Str) (dir f : Str), isNormalAbs dir → goodSeg f →
      ensureUniqueFilename fs dir f ∉ fs ∧
      ∃ k, ensureUniqueFilename fs dir f = joinPath dir (candName f k) ∧
        ∀ i, i < k → joinPath dir (candName f i) ∈ fs) ∧
    ensureUniqueFilename ["/d/photo.png".data] "/d".data "photo.png".data
      = "/d/photo_1.png".data ∧
    ensureUniqueFilename ["/d/photo.png".data, "/d/photo_1.png".data] "/d".data
      "photo.png".data = "/d/photo_2.png".data := by
  refine ⟨?_, by decide, by decide⟩
  intro fs dir f hD hf
  exact ensureUniqueFilename_spec fs dir f hD hf

/-- Witness for C6: the resolver applied in the `photo.png` collision
scenario returns a path not among the existing ones. -/
theorem ensureUniqueFilename_contract_witness :
    ensureUniqueFilename ["/d/photo.png".data] "/d".data "photo.png".data
      ∉ ["/d/photo.png".data] :=
  (ensureUniqueFilename_contract.1 ["/d/photo.png".data] "/d".data "photo.png".data
    ⟨[['d']], by decide, rfl⟩ (by decide)).1

/-- C5: the Secure Downloader equals the spec's six-step contract — absence
with no network call on a validator-rejected URL, absence on network error,
on non-success status, on an oversized declared length (without reading the
body), and on an oversized actual body — and any present result is the
complete response body, at most `MAX_FILE_SIZE` bytes, never partial. -/
theorem downloadFile_contract :
    ∀ (oracle : Str → FetchOutcome) (url token : Str),
      downloadFile oracle url token = downloadFileSpec oracle url ∧
      dlComplete oracle url (downloadFile oracle url token) := by
  intro oracle url token
  have heq : downloadFile oracle url token = downloadFileSpec oracle url := by
    unfold downloadFile downloadFileSpec
    by_cases ha : isAllowedGithubDomain url
    · rw [if_neg (by simp [ha]), if_neg (by simp [ha])]
      cases ho : oracle url with
      | err => rfl
      | resp r =>
        by_cases hok : r.ok
        · by_cases hd : declaredTooBig r.contentLength
          · simp [hok, hd]
          · by_cases hb : r.bodyErr
            · simp [hok, hd, hb]
            · by_cases hl : MAX_FILE_SIZE < r.body.length
              · simp [hok, hd, hb, hl, Nat.not_le.mpr hl]
              · simp [hok, hd, hb, hl, Nat.le_of_not_lt hl]
        · simp [hok]
    · have hf : isAllowedGithubDomain url = false := by
        revert ha
        cases isAllowedGithubDomain url <;> simp
      simp [hf]
  refine ⟨heq, ?_⟩
  rw [heq]
  unfold dlComplete downloadFileSpec
  by_cases ha : isAllowedGithubDomain url
  · rw [if_neg (by simp [ha])]
    cases ho : oracle url with
    | err => exact trivial
    | resp r =>
      by_cases hok : r.ok
      · by_cases hd : declaredTooBig r.contentLength
        · simp [hok, hd]
        · by_cases hb : r.bodyErr
          · simp [hok, hd, hb]
          · by_cases hl : r.body.length ≤ MAX_FILE_SIZE
            · simp only [hok, hd, hb, hl, if_true, if_false, Bool.not_eq_true]
              exact ⟨hl, r, rfl, by simpa using hok, by simpa using hb, rfl⟩
            · simp [hok, hd, hb, hl]
      · simp [hok]
  · have hf : isAllowedGithubDomain url = false := by
      revert ha
      cases isAllowedGithubDomain url <;> simp
    simp [hf]

/-- C8: a run whose event identifier fails the `^\d+$` check produces the
empty event trace (so the traversal guard is never evaluated and no
directory creation or file write happens) and exits with code 1. -/
theorem mainRun_invalid_issue_number :
    ∀ (cwd : Str) (env : Env) (oracle : Str → FetchOutcome) (fs0 : List Str) (now : Str),
      isDigitsStr (env.issue_number.getD []) = false →
      mainRun cwd env oracle fs0 now = ([], 1) := by
  intro cwd env oracle fs0 now h
  simp only [mainRun]
  by_cases h1 : env.github_token.getD [] = [] ∨ env.issue_number.getD [] = [] ∨
      env.comment_id.getD [] = [] ∨ env.github_repository.getD [] = []
  · rw [if_pos h1]
  · rw [if_neg h1, if_pos (by simp [h])]

theorem processUrls_only_writes (oracle : Str → FetchOutcome) (token targetDir : Str) :
    ∀ (urls fs : List Str) (e : Event), e ∈ (processUrls oracle token targetDir urls fs).1 →
      ∃ p c, e = Event.writeFile p c := by
  intro urls
  induction urls with
  | nil => intro fs e he; cases he
  | cons url rest ih =>
    intro fs e he
    unfold processUrls at he
    split at he
    · exact ih fs e he
    · dsimp only at he
      rcases List.mem_cons.mp he with rfl | he
      · exact ⟨_, _, rfl⟩
      · exact ih _ e he

/-- C10: when `GITHUB_OUTPUT` is unset every run exits with code 1 — even a
run with all five required inputs present and a comment without URLs —
because the first `setOutput` call throws; accordingly no output line is
ever emitted. The reporting channel is therefore required configuration
beyond the documented input table. -/
theorem mainRun_requires_output_channel :
    ∀ (cwd : Str) (env : Env) (oracle : Str → FetchOutcome) (fs0 : List Str) (now : Str),
      env.github_output = none →
      (mainRun cwd env oracle fs0 now).2 = 1 ∧
      (∀ n v, Event.setOut n v ∉ (mainRun cwd env oracle fs0 now).1) := by
  intro cwd env oracle fs0 now hout
  have hso : ∀ n v, setOutputEvt env.github_output n v = none := by
    intro n v
    rw [hout]
    rfl
  have honly : ∀ e ∈ [Event.guardChecked,
      Event.mkdirEvt (joinPath (resolvePath cwd "uploaded_files".data)
        ("issue_".data ++ env.issue_number.getD []))], ∀ n v, e ≠ Event.setOut n v := by
    intro e he n v
    rcases List.mem_cons.mp he with rfl | he
    · intro hc; cases hc
    · rcases List.mem_cons.mp he with rfl | he
      · intro hc; cases hc
      · cases he
  simp only [mainRun, hso]
  split
  · exact ⟨rfl, fun n v hm => by cases hm⟩
  · split
    · exact ⟨rfl, fun n v hm => by cases hm⟩
    · split
      · refine ⟨rfl, fun n v hm => ?_⟩
        cases List.mem_singleton.mp hm
      · split
        · refine ⟨rfl, fun n v hm => (honly _ hm n v) rfl⟩
        · split
          · refine ⟨rfl, fun n v hm => ?_⟩
            rcases List.mem_append.mp hm with hm | hm
            · exact (honly _ hm n v) rfl
            · rcases processUrls_only_writes _ _ _ _ _ _ hm with ⟨p, c, hc⟩
              cases hc
          · refine ⟨rfl, fun n v hm => ?_⟩
            rcases List.mem_append.mp hm with hm | hm
            · exact (honly _ hm n v) rfl
            · rcases processUrls_only_writes _ _ _ _ _ _ hm with ⟨p, c, hc⟩
              cases hc

theorem dedupKeepFirst_acc_sub :
    ∀ (l : List Str) (acc : List Str),
      acc ⊆ l.foldl (fun acc u => if u ∈ acc then acc else acc ++ [u]) acc := by
  intro l
  induction l with
  | nil => intro acc; exact fun x h => h
  | cons u rest ih =>
    intro acc
    rw [List.foldl_cons]
    intro x hx
    refine ih _ ?_
    by_cases hm : u ∈ acc
    · rw [if_pos hm]; exact hx
    · rw [if_neg hm]; exact List.mem_append_left _ hx

theorem dedupKeepFirst_eq_nil {l : List Str} : dedupKeepFirst l = [] ↔ l = [] := by
  constructor
  · intro h
    rcases hl : l with _ | ⟨u, rest⟩
    · rfl
    · exfalso
      rw [hl] at h
      unfold dedupKeepFirst at h
      rw [List.foldl_cons] at h
      have hu : u ∈ rest.foldl (fun acc u => if u ∈ acc then acc else acc ++ [u])
          (if u ∈ ([] : List Str) then [] else [] ++ [u]) := by
        refine dedupKeepFirst_acc_sub rest _ ?_
        simp
      rw [h] at hu
      cases hu
  · intro h
    rw [h]
    rfl

set_option maxRecDepth 10000 in
/-- C4 (counterexample): the markdown-image pattern is filtered with the JS
substring test `url.includes('github.com')`, not a host check, so the
markdown image `![a](https://evil.com/github.com/x)` — whose URL's host is
`evil.com`, a host the Domain Validator rejects — is nevertheless extracted.
This falsifies the claim that a markdown-image construct is extracted only
when its URL targets a known image-hosting or primary host. -/
theorem extractFileUrls_foreign_host_extracted :
    extractFileUrls "![a](https://evil.com/github.com/x)".data
      = ["https://evil.com/github.com/x".data] ∧
    parseUrlHost "https://evil.com/github.com/x".data = some "evil.com".data ∧
    isAllowedGithubDomain "https://evil.com/github.com/x".data = false := by
  decide

set_option maxRecDepth 10000 in
/-- C4 (amended): the Extractor returns the empty collection exactly when
none of its six pattern scans produces a match — where the markdown-image
shape (e) is amended to match whenever the image URL merely *contains* the
substring `user-images.githubusercontent.com` or `github.com`, not only
when it targets such a host. In particular plain prose, and a bare URL on a
foreign host, extract to nothing. -/
theorem extractFileUrls_empty_iff :
    (∀ body : Str, extractFileUrls body = [] ↔
      (runScan pAssetCore body = [] ∧ runScan pAttachCore body = [] ∧
       runScan pMdAsset body = [] ∧ runScan pMdAttach body = [] ∧
       runScan pMdRaw body = [] ∧
       (runScan pImg body).filter (fun u =>
         containsSub "user-images.githubusercontent.com".data u ||
         containsSub "github.com".data u) = [])) ∧
    extractFileUrls "plain prose, no attachment links here.".data = [] ∧
    extractFileUrls "bare foreign url https://evil.com/o/r/assets/1/f.png".data = [] := by
  refine ⟨?_, by decide, by decide⟩
  intro body
  unfold extractFileUrls
  rw [dedupKeepFirst_eq_nil]
  simp only [List.append_eq_nil, and_assoc]

theorem setOutputEvt_shape {o : Option Str} {a b : Str} {e : Event}
    (h : setOutputEvt o a b = some e) : e = Event.setOut a b := by
  rcases o with _ | p
  · simp [setOutputEvt] at h
  · simp only [setOutputEvt] at h
    by_cases hp : p = []
    · rw [if_pos hp] at h
      cases h
    · rw [if_neg hp] at h
      injection h with h2
      exact h2.symm

@[simp] theorem metaWrites_nil : metaWrites [] = [] := rfl

@[simp] theorem metaWrites_cons_guard (tr : List Event) :
    metaWrites (Event.guardChecked :: tr) = metaWrites tr := rfl

@[simp] theorem metaWrites_cons_mkdir (p : Str) (tr : List Event) :
    metaWrites (Event.mkdirEvt p :: tr) = metaWrites tr := rfl

@[simp] theorem metaWrites_cons_write (p : Str) (c : List Nat) (tr : List Event) :
    metaWrites (Event.writeFile p c :: tr) = metaWrites tr := rfl

@[simp] theorem metaWrites_cons_meta (p : Str) (m : FileMetadata) (tr : List Event) :
    metaWrites (Event.writeMeta p m :: tr) = (p, m) :: metaWrites tr := rfl

@[simp] theorem metaWrites_cons_setOut (n v : Str) (tr : List Event) :
    metaWrites (Event.setOut n v :: tr) = metaWrites tr := rfl

@[simp] theorem metaWrites_append (a b : List Event) :
    metaWrites (a ++ b) = metaWrites a ++ metaWrites b := by
  simp [metaWrites, List.filterMap_append]

@[simp] theorem writtenPaths_nil : writtenPaths [] = [] := rfl

@[simp] theorem writtenPaths_cons_guard (tr : List Event) :
    writtenPaths (Event.guardChecked :: tr) = writtenPaths tr := rfl

@[simp] theorem writtenPaths_cons_mkdir (p : Str) (tr : List Event) :
    writtenPaths (Event.mkdirEvt p :: tr) = writtenPaths tr := rfl

@[simp] theorem writtenPaths_cons_write (p : Str) (c : List Nat) (tr : List Event) :
    writtenPaths (Event.writeFile p c :: tr) = p :: writtenPaths tr := rfl

@[simp] theorem writtenPaths_cons_meta (p : Str) (m : FileMetadata) (tr : List Event) :
    writtenPaths (Event.writeMeta p m :: tr) = writtenPaths tr := rfl

@[simp] theorem writtenPaths_cons_setOut (n v : Str) (tr : List Event) :
    writtenPaths (Event.setOut n v :: tr) = writtenPaths tr := rfl

@[simp] theorem writtenPaths_append (a b : List Event) :
    writtenPaths (a ++ b) = writtenPaths a ++ writtenPaths b := by
  simp [writtenPaths, List.filterMap_append]

@[simp] theorem allWritePaths_nil : allWritePaths [] = [] := rfl

@[simp] theorem allWritePaths_cons_guard (tr : List Event) :
    allWritePaths (Event.guardChecked :: tr) = allWritePaths tr := rfl

@[simp] theorem allWritePaths_cons_mkdir (p : Str) (tr : List Event) :
    allWritePaths (Event.mkdirEvt p :: tr) = allWritePaths tr := rfl

@[simp] theorem allWritePaths_cons_write (p : Str) (c : List Nat) (tr : List Event) :
    allWritePaths (Event.writeFile p c :: tr) = p :: allWritePaths tr := rfl

@[simp] theorem allWritePaths_cons_meta (p : Str) (m : FileMetadata) (tr : List Event) :
    allWritePaths (Event.writeMeta p m :: tr) = p :: allWritePaths tr := rfl

@[simp] theorem allWritePaths_cons_setOut (n v : Str) (tr : List Event) :
    allWritePaths (Event.setOut n v :: tr) = allWritePaths tr := rfl

@[simp] theorem allWritePaths_append (a b : List Event) :
    allWritePaths (a ++ b) = allWritePaths a ++ allWritePaths b := by
  simp [allWritePaths, List.filterMap_append]

/-- C7: the ingestion manifest is written exactly on a run that exits
successfully having written at least one file (never on a zero-file run),
and any written manifest lists exactly the file paths written by that run,
in write order. -/
theorem mainRun_manifest :
    ∀ (cwd : Str) (env : Env) (oracle : Str → FetchOutcome) (fs0 : List Str) (now : Str),
      (metaWrites (mainRun cwd env oracle fs0 now).1 ≠ [] ↔
        ((mainRun cwd env oracle fs0 now).2 = 0 ∧
          writtenPaths (mainRun cwd env oracle fs0 now).1 ≠ [])) ∧
      (∀ p m, (p, m) ∈ metaWrites (mainRun cwd env oracle fs0 now).1 →
        m.files = writtenPaths (mainRun cwd env oracle fs0 now).1) := by
  intro cwd env oracle fs0 now
  simp only [mainRun]
  split
  · exact ⟨by simp, fun p m hm => by simp at hm⟩
  · split
    · exact ⟨by simp, fun p m hm => by simp at hm⟩
    · split
      · exact ⟨by simp, fun p m hm => by simp at hm⟩
      · split
        · split
          · exact ⟨by simp, fun p m hm => by simp at hm⟩
          · rename_i e heq
            rw [setOutputEvt_shape heq]
            exact ⟨by simp, fun p m hm => by simp at hm⟩
        · split
          · rename_i hnil
            split
            · exact ⟨by simp, fun p m hm => by simp at hm⟩
            · rename_i e heq
              rw [setOutputEvt_shape heq]
              refine ⟨by simp; exact hnil, fun p m hm => by simp at hm⟩
          · rename_i hnn
            split
            · exact ⟨by simp, fun p m hm => by simp at hm⟩
            · rename_i e1 heq1
              rw [setOutputEvt_shape heq1]
              split
              · exact ⟨by simp, fun p m hm => by simp at hm⟩
              · rename_i e2 heq2
                rw [setOutputEvt_shape heq2]
                constructor
                · simp
                  exact hnn
                · intro p m hm
                  simp at hm
                  rw [hm.2]
                  simp

@[simp] theorem allWritePaths_processUrls (oracle : Str → FetchOutcome) (token targetDir : Str) :
    ∀ (urls : List Str) (fs : List Str),
      allWritePaths (processUrls oracle token targetDir urls fs).1 =
        (processUrls oracle token targetDir urls fs).2.2 := by
  intro urls
  induction urls with
  | nil => intro fs; rfl
  | cons url rest ih =>
    intro fs
    unfold processUrls
    split
    · exact ih fs
    · dsimp only
      simp only [allWritePaths_cons_write]
      rw [ih]

theorem issueSeg_goodSeg {n : Str} (hn : isDigitsStr n = true) :
    goodSeg ("issue_".data ++ n) := by
  have hmem : ∀ c ∈ ("issue_".data ++ n), c ≠ '/' := by
    intro c hc
    rcases List.mem_append.mp hc with hc | hc
    · have h6 : c = 'i' ∨ c = 's' ∨ c = 'u' ∨ c = 'e' ∨ c = '_' := by
        simpa using hc
      rcases h6 with rfl | rfl | rfl | rfl | rfl <;> decide
    · have hall : n.all isDigitChar = true := by
        unfold isDigitsStr at hn
        exact (Bool.and_eq_true _ _ |>.mp hn).2
      have hd := List.all_eq_true.mp hall c hc
      intro he
      rw [he] at hd
      exact absurd hd (by decide)
  refine ⟨by simp, ?_, ?_, fun hm => (hmem '/' hm) rfl⟩
  · intro he
    simp at he
  · intro he
    simp at he

/-- C1: every file path a run writes (each downloaded file and the metadata
file) lies strictly inside the fixed base directory
`path.resolve('uploaded_files')`; moreover no filename the Deriver produces
from a URL contains a path separator or is empty, so a crafted URL cannot
reintroduce a separator or an absolute component. -/
theorem mainRun_paths_inside :
    ∀ (cwd : Str) (env : Env) (oracle : Str → FetchOutcome) (fs0 : List Str) (now : Str),
      isNormalAbs cwd →
      (∀ p, p ∈ allWritePaths (mainRun cwd env oracle fs0 now).1 →
        strictlyInside (resolvePath cwd "uploaded_files".data) p) ∧
      (∀ url : Str, noSlash (getFilenameFromUrl url) ∧ getFilenameFromUrl url ≠ []) := by
  intro cwd env oracle fs0 now hcwd
  refine ⟨?_, fun url => ⟨(getFilenameFromUrl_goodSeg url).2.2.2,
    (getFilenameFromUrl_goodSeg url).1⟩⟩
  obtain ⟨C, hCg, rfl⟩ := hcwd
  have hufgood : goodSeg "uploaded_files".data := by decide
  have hBase : resolvePath (absOf C) "uploaded_files".data
      = absOf (C ++ ["uploaded_files".data]) := by
    unfold resolvePath
    rw [if_neg (by decide)]
    exact normalize_abs_join hCg hufgood
  have hBg : ∀ s ∈ C ++ ["uploaded_files".data], goodSeg s := by
    intro s hs
    rcases List.mem_append.mp hs with hs | hs
    · exact hCg s hs
    · rw [List.mem_singleton.mp hs]
      exact hufgood
  have hBne : C ++ ["uploaded_files".data] ≠ [] := by simp
  intro p hp
  simp only [mainRun] at hp
  split at hp
  · simp at hp
  · split at hp
    · simp at hp
    · split at hp
      · simp [allWritePaths] at hp
      · rename_i hreq hdignn hguard
        have hdig : isDigitsStr (env.issue_number.getD []) = true := by
          simpa using hdignn
        have hiseg : goodSeg ("issue_".data ++ env.issue_number.getD []) :=
          issueSeg_goodSeg hdig
        have hisegGood2 : ∀ s ∈ (C ++ ["uploaded_files".data]) ++
            ["issue_".data ++ env.issue_number.getD []], goodSeg s := by
          intro s hs
          rcases List.mem_append.mp hs with hs | hs
          · exact hBg s hs
          · rw [List.mem_singleton.mp hs]
            exact hiseg
        have hTD : joinPath (resolvePath (absOf C) "uploaded_files".data)
            ("issue_".data ++ env.issue_number.getD [])
            = absOf ((C ++ ["uploaded_files".data]) ++
                ["issue_".data ++ env.issue_number.getD []]) := by
          rw [hBase]
          exact joinPath_absOf hBg hiseg
        have hTDabs : isNormalAbs (joinPath (resolvePath (absOf C) "uploaded_files".data)
            ("issue_".data ++ env.issue_number.getD [])) :=
          ⟨(C ++ ["uploaded_files".data]) ++ ["issue_".data ++ env.issue_number.getD []],
            hisegGood2, hTD⟩
        have hfin : ∀ g : Str, goodSeg g →
            strictlyInside (resolvePath (absOf C) "uploaded_files".data)
              (joinPath (joinPath (resolvePath (absOf C) "uploaded_files".data)
                ("issue_".data ++ env.issue_number.getD [])) g) := by
          intro g hg
          rw [hTD, joinPath_absOf hisegGood2 hg, hBase, List.append_assoc]
          refine strictlyInside_absOf hBne (by simp) ?_
          intro s hs
          rcases List.mem_append.mp hs with hs | hs
          · rw [List.mem_singleton.mp hs]
            exact hiseg
          · rw [List.mem_singleton.mp hs]
            exact hg
        split at hp
        · split at hp
          · simp at hp
          · rename_i e heq
            rw [setOutputEvt_shape heq] at hp
            simp at hp
        · split at hp
          · split at hp
            · simp only [allWritePaths_append, allWritePaths_cons_guard,
                allWritePaths_cons_mkdir, allWritePaths_nil, allWritePaths_processUrls,
                List.nil_append, List.append_nil] at hp
              obtain ⟨g, hg, rfl⟩ := processUrls_paths hTDabs _ _ p hp
              exact hfin g hg
            · rename_i e heq
              rw [setOutputEvt_shape heq] at hp
              simp only [allWritePaths_append, allWritePaths_cons_guard,
                allWritePaths_cons_mkdir, allWritePaths_cons_setOut, allWritePaths_nil,
                allWritePaths_processUrls, List.nil_append, List.append_nil] at hp
              obtain ⟨g, hg, rfl⟩ := processUrls_paths hTDabs _ _ p hp
              exact hfin g hg
          · split at hp
            · simp only [allWritePaths_append, allWritePaths_cons_guard,
                allWritePaths_cons_mkdir, allWritePaths_nil, allWritePaths_processUrls,
                List.nil_append, List.append_nil] at hp
              obtain ⟨g, hg, rfl⟩ := processUrls_paths hTDabs _ _ p hp
              exact hfin g hg
            · rename_i e1 heq1
              rw [setOutputEvt_shape heq1] at hp
              split at hp
              · simp only [allWritePaths_append, allWritePaths_cons_guard,
                  allWritePaths_cons_mkdir, allWritePaths_cons_setOut, allWritePaths_nil,
                  allWritePaths_processUrls, List.nil_append, List.append_nil] at hp
                obtain ⟨g, hg, rfl⟩ := processUrls_paths hTDabs _ _ p hp
                exact hfin g hg
              · rename_i e2 heq2
                rw [setOutputEvt_shape heq2] at hp
                simp only [allWritePaths_append, allWritePaths_cons_guard,
                  allWritePaths_cons_mkdir, allWritePaths_cons_setOut,
                  allWritePaths_cons_meta, allWritePaths_nil, allWritePaths_processUrls,
                  List.nil_append, List.append_nil, List.mem_append, List.mem_cons,
                  List.not_mem_nil, or_false] at hp
                rcases hp with hp | rfl
                · obtain ⟨g, hg, rfl⟩ := processUrls_paths hTDabs _ _ p hp
                  exact hfin g hg
                · exact hfin "metadata.json".data (by decide)

/-! ### Witness fixtures: a concrete successful run -/

/-- A complete environment: all five required inputs present, an image
attachment in the comment, and a reporting channel. -/
def envW : Env :=
  ⟨some "tok".data, some "42".data,
   some "see ![img](https://user-images.githubusercontent.com/1/2/3/abc.png)".data,
   some "777".data, some "o/r".data, some "/tmp/out".data⟩

/-- A network oracle answering every URL with a small successful body. -/
def oracleW : Str → FetchOutcome := fun _ => FetchOutcome.resp ⟨true, none, false, [7, 8]⟩

/-- `envW` with a non-numeric event identifier. -/
def envWBadIssue : Env := { envW with issue_number := some "12a".data }

/-- `envW` with no URLs in the comment and no reporting channel. -/
def envWNoOutput : Env :=
  { envW with comment_body := some "hello there".data, github_output := none }

/-- Witness for C1: in the concrete run the written file path lies strictly
inside the base directory. -/
theorem mainRun_paths_inside_witness :
    strictlyInside (resolvePath "/w".data "uploaded_files".data)
      "/w/uploaded_files/issue_42/abc.png".data :=
  (mainRun_paths_inside "/w".data envW oracleW [] "T".data
    ⟨[['w']], by decide, rfl⟩).1 "/w/uploaded_files/issue_42/abc.png".data (by decide)

/-- Witness for C7: the manifest written by the concrete run lists exactly
the one written file path. -/
theorem mainRun_manifest_witness :
    (⟨"42".data, "777".data, ["/w/uploaded_files/issue_42/abc.png".data],
        "T".data⟩ : FileMetadata).files
      = writtenPaths (mainRun "/w".data envW oracleW [] "T".data).1 :=
  (mainRun_manifest "/w".data envW oracleW [] "T".data).2
    "/w/uploaded_files/issue_42/metadata.json".data
    ⟨"42".data, "777".data, ["/w/uploaded_files/issue_42/abc.png".data], "T".data⟩
    (by decide)

/-- Witness for C8: a run with the malformed identifier `12a` does nothing
and exits 1. -/
theorem mainRun_invalid_issue_number_witness :
    mainRun "/w".data envWBadIssue oracleW [] "T".data = ([], 1) :=
  mainRun_invalid_issue_number "/w".data envWBadIssue oracleW [] "T".data (by decide)

/-- Witness for C10: with `GITHUB_OUTPUT` unset, the benign run (all five
required inputs present, no URLs) exits 1. -/
theorem mainRun_requires_output_channel_witness :
    (mainRun "/w".data envWNoOutput oracleW [] "T".data).2 = 1 :=
  (mainRun_requires_output_channel "/w".data envWNoOutput oracleW [] "T".data rfl).1
